import Mathlib

/-!
A verification development for the covid19uk MCMC inference engine.

The Python sources are shallowly embedded:
* kernel result records (`UncalibratedResults`, `MHResults`, `KernelResults`)
  and the forwarding helpers `forward_results` (src/mcmc.py),
  `get_accepted_results`, `set_accepted_results`, `advance_target_log_prob`
  (src/covid/impl/mcmc.py);
* the Metropolis-Hastings wrapper and the Gibbs sweep `body` of
  src/mcmc.py's `sample`, with the random proposals and the uniform draws
  passed in explicitly as oracles;
* the numeric kernels of src/covid/impl/discrete_markov.py
  (`approx_expm`, `chain_binomial_propagate`, `discrete_markov_log_prob`)
  over real/rational numbers;
* the uncalibrated kernels of src/covid/impl/mcmc.py
  (`UncalibratedLogRandomWalk.one_step`, `UncalibratedEventTimesUpdate.one_step`,
  `random_walk_mvnorm_fn`).

Floating point is modelled by `ℝ` (or `ℚ` where every operation is rational),
the float `-inf` sentinel by `⊥ : WithBot ℚ`, and random draws by explicit
oracle arguments whose support conditions become hypotheses.
-/

namespace Covid19UK

/-! ## Kernel result records

`UncalibratedRandomWalkResults` from tensorflow_probability, as produced by the
uncalibrated kernels in src/covid/impl/mcmc.py: a log acceptance correction and
a target log probability. -/

structure UncalibratedResults (α : Type) where
  log_acceptance_correction : α
  target_log_prob : α
deriving DecidableEq, Repr

/-- `MetropolisHastingsKernelResults`: the record produced by the calibrated
Metropolis-Hastings wrapper around each uncalibrated kernel. -/
structure MHResults (α : Type) where
  accepted_results : UncalibratedResults α
  is_accepted : Bool
  log_accept_ratio : α
  proposed_results : UncalibratedResults α
deriving DecidableEq, Repr

/-- `forward_results` from src/mcmc.py (lines 185-189): replace the
`target_log_prob` inside `next_results.accepted_results` by the one carried in
`prev_results.accepted_results`, leaving everything else as it is. -/
def forward_results {α : Type} (prev_results next_results : MHResults α) : MHResults α :=
  let accepted_results :=
    { next_results.accepted_results with
        target_log_prob := prev_results.accepted_results.target_log_prob }
  { next_results with accepted_results := accepted_results }

/-- Kernel results as seen by `get_accepted_results`/`set_accepted_results`
(src/covid/impl/mcmc.py lines 182-195): either the record carries an
`accepted_results` field directly (the Metropolis-Hastings case), or it is a
wrapper holding further fields plus an `inner_results` chain that eventually
does.  The wrapper's other fields are represented by one rational payload. -/
inductive KernelResults (α : Type) where
  | mh (results : MHResults α) : KernelResults α
  | wrapped (outer : α) (inner_results : KernelResults α) : KernelResults α

/-- `get_accepted_results` from src/covid/impl/mcmc.py: recurse through
`inner_results` until a record with an `accepted_results` field is found. -/
def get_accepted_results {α : Type} : KernelResults α → UncalibratedResults α
  | .mh results => results.accepted_results
  | .wrapped _ inner_results => get_accepted_results inner_results

/-- `set_accepted_results` from src/covid/impl/mcmc.py: replace the nested
`accepted_results`, rebuilding every wrapper on the way. -/
def set_accepted_results {α : Type} : KernelResults α → UncalibratedResults α → KernelResults α
  | .mh results, accepted_results => .mh { results with accepted_results := accepted_results }
  | .wrapped outer inner_results, accepted_results =>
      .wrapped outer (set_accepted_results inner_results accepted_results)

/-- `advance_target_log_prob` from src/covid/impl/mcmc.py (lines 198-202). -/
def advance_target_log_prob {α : Type} (next_results previous_results : KernelResults α) : KernelResults α :=
  let prev_accepted_results := get_accepted_results previous_results
  let next_accepted_results := get_accepted_results next_results
  let next_accepted_results' :=
    { next_accepted_results with target_log_prob := prev_accepted_results.target_log_prob }
  set_accepted_results next_results next_accepted_results'

lemma get_set_accepted_results {α : Type} (r : KernelResults α) (a : UncalibratedResults α) :
    get_accepted_results (set_accepted_results r a) = a := by
  induction r with
  | mh results => rfl
  | wrapped outer inner ih => simpa [set_accepted_results, get_accepted_results] using ih

lemma set_get_accepted_results {α : Type} (r : KernelResults α) :
    set_accepted_results r (get_accepted_results r) = r := by
  induction r with
  | mh results => rfl
  | wrapped outer inner ih => simp [set_accepted_results, get_accepted_results, ih]

/-! ## The Metropolis-Hastings wrapper and the Gibbs sweep of src/mcmc.py

`tfp.mcmc.MetropolisHastings.one_step` around an uncalibrated kernel: the inner
kernel proposes a new value for the block it owns and evaluates the target log
density there; the wrapper accepts iff `log u` is below
`proposed target_log_prob - previous accepted target_log_prob + correction`.
The proposal map and the uniform draw (as `log u`) are explicit oracles; state
blocks are abstracted as integers since the sweep logic never inspects them. -/

def mh_one_step {α : Type} [LinearOrderedAddCommGroup α]
    (logp_fn : ℤ → α) (propose : ℤ → ℤ) (correction : α) (logU : α)
    (current_state : ℤ) (previous_kernel_results : MHResults α) : ℤ × MHResults α :=
  let next_state := propose current_state
  let proposed_results : UncalibratedResults α :=
    { log_acceptance_correction := correction, target_log_prob := logp_fn next_state }
  let log_accept_ratio :=
    proposed_results.target_log_prob
      - previous_kernel_results.accepted_results.target_log_prob
      + proposed_results.log_acceptance_correction
  if logU < log_accept_ratio then
    (next_state,
      { accepted_results := proposed_results
        is_accepted := true
        log_accept_ratio := log_accept_ratio
        proposed_results := proposed_results })
  else
    (current_state,
      { accepted_results := previous_kernel_results.accepted_results
        is_accepted := false
        log_accept_ratio := log_accept_ratio
        proposed_results := proposed_results })

/-- The joint MCMC state of src/mcmc.py's `sample`: `state[0]` the parameter
block, `state[1]` the transition-event block, `state[2]` the occult block. -/
structure GibbsState where
  par : ℤ
  events : ℤ
  occults : ℤ
deriving DecidableEq, Repr

/-- The five kernel-result slots of `sample` (parameter, S→E move, E→I move,
S→E occult, E→I occult). -/
structure SweepResults (α : Type) where
  r0 : MHResults α
  r1 : MHResults α
  r2 : MHResults α
  r3 : MHResults α
  r4 : MHResults α
deriving DecidableEq, Repr

/-- Per-kernel oracles for one sweep: the proposal map, the uncalibrated
kernel's reported log-acceptance-correction, and the `log u` uniform draw for
each inner-loop iteration (the parameter kernel is called once per sweep). -/
structure SweepOracles (α : Type) where
  proposePar : ℤ → ℤ
  proposeSe : ℕ → ℤ → ℤ
  proposeEi : ℕ → ℤ → ℤ
  proposeSeOccult : ℕ → ℤ → ℤ
  proposeEiOccult : ℕ → ℤ → ℤ
  correctionPar : α
  correctionSe : ℕ → α
  correctionEi : ℕ → α
  correctionSeOccult : ℕ → α
  correctionEiOccult : ℕ → α
  logUPar : α
  logUSe : ℕ → α
  logUEi : ℕ → α
  logUSeOccult : ℕ → α
  logUEiOccult : ℕ → α

/-- `infec_body` from src/mcmc.py (lines 238-262): one inner iteration running
the S→E move, E→I move, S→E occult and E→I occult kernels, each receiving the
previously computed joint log density through `forward_results`. -/
def infec_body {α : Type} [LinearOrderedAddCommGroup α]
    (logp : ℤ → ℤ → ℤ → α) (o : SweepOracles α) (j : ℕ)
    (state : GibbsState) (results : SweepResults α) : GibbsState × SweepResults α :=
  let step1 := mh_one_step (fun v => logp state.par v state.occults)
    (o.proposeSe j) (o.correctionSe j) (o.logUSe j) state.events (forward_results results.r4 results.r1)
  let state1 := { state with events := step1.1 }
  let results1 := { results with r1 := step1.2 }
  let step2 := mh_one_step (fun v => logp state1.par v state1.occults)
    (o.proposeEi j) (o.correctionEi j) (o.logUEi j) state1.events (forward_results results1.r1 results1.r2)
  let state2 := { state1 with events := step2.1 }
  let results2 := { results1 with r2 := step2.2 }
  let step3 := mh_one_step (fun v => logp state2.par state2.events v)
    (o.proposeSeOccult j) (o.correctionSeOccult j) (o.logUSeOccult j) state2.occults
    (forward_results results2.r2 results2.r3)
  let state3 := { state2 with occults := step3.1 }
  let results3 := { results2 with r3 := step3.2 }
  let step4 := mh_one_step (fun v => logp state3.par state3.events v)
    (o.proposeEiOccult j) (o.correctionEiOccult j) (o.logUEiOccult j) state3.occults
    (forward_results results3.r3 results3.r4)
  let state4 := { state3 with occults := step4.1 }
  let results4 := { results3 with r4 := step4.2 }
  (state4, results4)

/-- Iterate `infec_body` `num_event_updates` times (the `tf.while_loop` of
src/mcmc.py lines 264-271), threading the inner iteration counter `j`. -/
def infec_loop {α : Type} [LinearOrderedAddCommGroup α]
    (logp : ℤ → ℤ → ℤ → α) (o : SweepOracles α) :
    ℕ → ℕ → GibbsState → SweepResults α → GibbsState × SweepResults α
  | 0, _, state, results => (state, results)
  | n + 1, j, state, results =>
      let step := infec_body logp o j state results
      infec_loop logp o n (j + 1) step.1 step.2

/-- `body` from src/mcmc.py (lines 225-271): one full Gibbs sweep.  The
parameter kernel runs first, receiving `forward_results(results[2], results[0])`;
then `results[4]` is refreshed from `results[0]`, and the inner loop runs
`num_event_updates` times. -/
def sweep_body {α : Type} [LinearOrderedAddCommGroup α]
    (logp : ℤ → ℤ → ℤ → α) (o : SweepOracles α) (num_event_updates : ℕ)
    (state : GibbsState) (results : SweepResults α) : GibbsState × SweepResults α :=
  let step0 := mh_one_step (fun v => logp v state.events state.occults)
    o.proposePar o.correctionPar o.logUPar state.par (forward_results results.r2 results.r0)
  let state0 := { state with par := step0.1 }
  let results0 := { results with r0 := step0.2 }
  let results0' := { results0 with r4 := forward_results results0.r0 results0.r4 }
  infec_loop logp o num_event_updates 0 state0 results0'

/-! ## C9, C10: the forwarding helpers are surgical -/

/-- C9.  Frame property of result forwarding: `forward_results prev next`
returns `next` with only `accepted_results.target_log_prob` replaced by
`prev`'s accepted `target_log_prob` — the acceptance flag, the proposed
results, the accepted log-acceptance-correction and the log-accept-ratio are
unchanged; and likewise `advance_target_log_prob next prev` only rewrites the
`target_log_prob` inside the nested `accepted_results`, every wrapper field
and every other field being preserved (restoring the original
`accepted_results` recovers `next` exactly). -/
theorem forward_results_frame {α : Type} :
    (∀ prev next : MHResults α,
      (forward_results prev next).accepted_results.target_log_prob
          = prev.accepted_results.target_log_prob ∧
      (forward_results prev next).accepted_results.log_acceptance_correction
          = next.accepted_results.log_acceptance_correction ∧
      (forward_results prev next).is_accepted = next.is_accepted ∧
      (forward_results prev next).log_accept_ratio = next.log_accept_ratio ∧
      (forward_results prev next).proposed_results = next.proposed_results) ∧
    (∀ next prev : KernelResults α,
      (get_accepted_results (advance_target_log_prob next prev)).target_log_prob
          = (get_accepted_results prev).target_log_prob ∧
      (get_accepted_results (advance_target_log_prob next prev)).log_acceptance_correction
          = (get_accepted_results next).log_acceptance_correction ∧
      set_accepted_results (advance_target_log_prob next prev) (get_accepted_results next)
          = next) := by
  constructor
  · intro prev next
    refine ⟨rfl, rfl, rfl, rfl, rfl⟩
  · intro next prev
    refine ⟨?_, ?_, ?_⟩
    · simp [advance_target_log_prob, get_set_accepted_results]
    · simp [advance_target_log_prob, get_set_accepted_results]
    · induction next with
      | mh results => rfl
      | wrapped outer inner ih =>
          simp [advance_target_log_prob, set_accepted_results, get_accepted_results] at ih ⊢
          exact ih

/-- C10.  Round-trip of nested accepted-results access: for every results
structure `r` (whose `inner_results` chain reaches an `accepted_results` field
at a finite depth, which the `KernelResults` type enforces) and every
replacement record `a`, `get_accepted_results (set_accepted_results r a) = a`
and `set_accepted_results r (get_accepted_results r) = r`. -/
theorem accepted_results_roundtrip {α : Type} (r : KernelResults α) (a : UncalibratedResults α) :
    get_accepted_results (set_accepted_results r a) = a ∧
    set_accepted_results r (get_accepted_results r) = r :=
  ⟨get_set_accepted_results r a, set_get_accepted_results r⟩

/-! ## C1: staleness of the forwarded log density at the sweep boundary

The sweep's concrete witness configuration: the joint log density is the sum
of the three blocks, every kernel proposes a strictly different value for its
block, and every uniform draw is small enough that every proposal is accepted.
After one full sweep with `num_event_updates = 1`:

* the parameter block ends at `1`, the event block at `110`, the occult block
  at `11000`, so the fresh joint log density at the final state is `11111`;
* every one of the five kernels accepted its proposal;
* yet the results record forwarded into the next parameter-kernel call,
  `forward_results results[2] results[0]`, carries target log density `111` —
  the density the E→I kernel computed *before* the two occult kernels of the
  same sweep mutated the occult block. -/

def exLogp : ℤ → ℤ → ℤ → ℤ := fun p e o => p + e + o

def exOracles : SweepOracles ℤ where
  proposePar := fun z => z + 1
  proposeSe := fun _ z => z + 10
  proposeEi := fun _ z => z + 100
  proposeSeOccult := fun _ z => z + 1000
  proposeEiOccult := fun _ z => z + 10000
  correctionPar := 0
  correctionSe := fun _ => 0
  correctionEi := fun _ => 0
  correctionSeOccult := fun _ => 0
  correctionEiOccult := fun _ => 0
  logUPar := -100000
  logUSe := fun _ => -100000
  logUEi := fun _ => -100000
  logUSeOccult := fun _ => -100000
  logUEiOccult := fun _ => -100000

def exInitResults : SweepResults ℤ :=
  let r : MHResults ℤ :=
    { accepted_results := { log_acceptance_correction := 0, target_log_prob := 0 }
      is_accepted := true
      log_accept_ratio := 0
      proposed_results := { log_acceptance_correction := 0, target_log_prob := 0 } }
  { r0 := r, r1 := r, r2 := r, r3 := r, r4 := r }

/-- C1.  Gibbs-sweep forwarding consistency fails: in the concrete sweep above
every kernel accepts its proposal, yet the `forward_results results[2]
results[0]` record handed to the next parameter-kernel call carries a target
log density different from `logp` evaluated fresh at the final values of all
three blocks — it omits the occult mutations accepted later in the sweep
(indeed it carries `111` while the fresh joint density is `11111`). -/
theorem gibbs_sweep_forwarding_stale :
    (sweep_body exLogp exOracles 1 ⟨0, 0, 0⟩ exInitResults).2.r0.is_accepted = true ∧
    (sweep_body exLogp exOracles 1 ⟨0, 0, 0⟩ exInitResults).2.r1.is_accepted = true ∧
    (sweep_body exLogp exOracles 1 ⟨0, 0, 0⟩ exInitResults).2.r2.is_accepted = true ∧
    (sweep_body exLogp exOracles 1 ⟨0, 0, 0⟩ exInitResults).2.r3.is_accepted = true ∧
    (sweep_body exLogp exOracles 1 ⟨0, 0, 0⟩ exInitResults).2.r4.is_accepted = true ∧
    (forward_results (sweep_body exLogp exOracles 1 ⟨0, 0, 0⟩ exInitResults).2.r2
        (sweep_body exLogp exOracles 1 ⟨0, 0, 0⟩ exInitResults).2.r0).accepted_results.target_log_prob
      = 111 ∧
    exLogp (sweep_body exLogp exOracles 1 ⟨0, 0, 0⟩ exInitResults).1.par
        (sweep_body exLogp exOracles 1 ⟨0, 0, 0⟩ exInitResults).1.events
        (sweep_body exLogp exOracles 1 ⟨0, 0, 0⟩ exInitResults).1.occults
      = 11111 ∧
    (forward_results (sweep_body exLogp exOracles 1 ⟨0, 0, 0⟩ exInitResults).2.r2
        (sweep_body exLogp exOracles 1 ⟨0, 0, 0⟩ exInitResults).2.r0).accepted_results.target_log_prob
      ≠ exLogp (sweep_body exLogp exOracles 1 ⟨0, 0, 0⟩ exInitResults).1.par
          (sweep_body exLogp exOracles 1 ⟨0, 0, 0⟩ exInitResults).1.events
          (sweep_body exLogp exOracles 1 ⟨0, 0, 0⟩ exInitResults).1.occults := by
  decide

/-! ## C2: `UncalibratedLogRandomWalk.one_step` (src/covid/impl/mcmc.py lines 43-74)

The kernel draws a noise vector (here an oracle argument, one entry per state
component), proposes `next = current * exp(noise)` elementwise, evaluates the
target log density at the proposal, and reports
`log_acceptance_correction = reduce_sum(next_state_parts) - reduce_sum(current_state_parts)`. -/

noncomputable def log_random_walk_one_step (target_log_prob_fn : List ℝ → ℝ)
    (current_state_parts noise_parts : List ℝ) : List ℝ × UncalibratedResults ℝ :=
  let next_state_parts :=
    List.zipWith (fun cs ns => cs * Real.exp ns) current_state_parts noise_parts
  let next_target_log_prob := target_log_prob_fn next_state_parts
  let log_acceptance_correction := next_state_parts.sum - current_state_parts.sum
  (next_state_parts,
    { log_acceptance_correction := log_acceptance_correction
      target_log_prob := next_target_log_prob })

lemma mem_zipWith_mul_exp {current noise : List ℝ} {y : ℝ}
    (hy : y ∈ List.zipWith (fun cs ns => cs * Real.exp ns) current noise) :
    ∃ c ∈ current, ∃ n ∈ noise, y = c * Real.exp n := by
  induction current generalizing noise with
  | nil => simp at hy
  | cons c cs ih =>
      cases noise with
      | nil => simp at hy
      | cons n ns =>
          rcases (by simpa using hy : y = c * Real.exp n ∨ _) with h | h
          · exact ⟨c, by simp, n, by simp, h⟩
          · obtain ⟨c', hc', n', hn', hy'⟩ := ih h
            exact ⟨c', by simp [hc'], n', by simp [hn'], hy'⟩

/-- C2 (counterexample).  With current state `[1]` and noise `[log 2]` the
proposal is `[2]` and the kernel reports `log_acceptance_correction = 2 - 1 = 1`,
whereas the multiplicative-reparameterisation log-Jacobian claimed by the spec
is `(sum of log of proposed values) - (sum of log of current values)
= log 2 - log 1 = log 2 ≠ 1`: the code sums the values, not their logarithms. -/
theorem log_random_walk_correction_not_jacobian :
    (log_random_walk_one_step (fun _ => 0) [1] [Real.log 2]).2.log_acceptance_correction
      ≠ ((log_random_walk_one_step (fun _ => 0) [1] [Real.log 2]).1.map Real.log).sum
          - (([1] : List ℝ).map Real.log).sum := by
  have hexp : Real.exp (Real.log 2) = 2 := Real.exp_log (by norm_num)
  have hlhs :
      (log_random_walk_one_step (fun _ => 0) [1] [Real.log 2]).2.log_acceptance_correction
        = 1 := by
    norm_num [log_random_walk_one_step, hexp]
  have hrhs :
      ((log_random_walk_one_step (fun _ => 0) [1] [Real.log 2]).1.map Real.log).sum
          - (([1] : List ℝ).map Real.log).sum = Real.log 2 := by
    simp [log_random_walk_one_step, hexp]
  rw [hlhs, hrhs]
  have hlt : Real.log 2 < 1 := by
    rw [Real.log_lt_iff_lt_exp (by norm_num)]
    have := Real.exp_one_gt_d9
    linarith
  exact fun h => absurd h.symm (ne_of_lt hlt)

/-- C2 (amended).  For a strictly positive current parameter vector the
proposal `x' = x * exp(noise)` is strictly positive elementwise, and the
reported `log_acceptance_correction` equals the sum of the proposed parameter
values minus the sum of the current parameter values — the values themselves,
not their logarithms. -/
theorem log_random_walk_correction_value_sums (target_log_prob_fn : List ℝ → ℝ)
    (current noise : List ℝ) (hpos : ∀ x ∈ current, 0 < x) :
    (log_random_walk_one_step target_log_prob_fn current noise).2.log_acceptance_correction
        = (log_random_walk_one_step target_log_prob_fn current noise).1.sum - current.sum ∧
    ∀ y ∈ (log_random_walk_one_step target_log_prob_fn current noise).1, 0 < y := by
  refine ⟨rfl, ?_⟩
  intro y hy
  obtain ⟨c, hc, n, _, rfl⟩ := mem_zipWith_mul_exp hy
  exact mul_pos (hpos c hc) (Real.exp_pos n)

/-- Witness for C2 (amended) at current state `[1]`, noise `[0]`. -/
theorem log_random_walk_correction_value_sums_witness :
    (∀ x ∈ ([1] : List ℝ), 0 < x) ∧
    ((log_random_walk_one_step (fun _ => 0) [1] [0]).2.log_acceptance_correction
        = (log_random_walk_one_step (fun _ => 0) [1] [0]).1.sum - ([1] : List ℝ).sum ∧
      ∀ y ∈ (log_random_walk_one_step (fun _ => 0) [1] [0]).1, 0 < y) :=
  ⟨by norm_num,
    log_random_walk_correction_value_sums (fun _ => 0) [1] [0] (by norm_num)⟩

/-! ## C8: `random_walk_mvnorm_fn` (src/covid/impl/mcmc.py lines 14-39)

The factory jitters the supplied covariance by `1e-9` on the diagonal, builds
a fixed independent normal with per-component scale `0.01 / d` for
state dimension `d`, and mixes: a Bernoulli(`p_u`) draw `uv` gathers the
adaptive multivariate-normal sample when `uv = 1` (probability `p_u`) and the
fixed-scale sample when `uv = 0` (probability `1 - p_u`).  The two normal
samples and the Bernoulli draw are oracle arguments; their distributional
parameters (the fixed scale, the jittered covariance) are what the embedding
exposes. -/

def rwm_covariance_jitter (n : ℕ) (covariance : Fin n → Fin n → ℚ) :
    Fin n → Fin n → ℚ :=
  fun i j => covariance i j + if i = j then 1 / 1000000000 else 0

/-- The `scale` argument of `rv_fix = tfp.distributions.Normal(loc=0,
scale=0.01/covariance.shape[0])` (lines 26-27): the per-component standard
deviation of the fixed branch of the mixture, for dimension `d`. -/
def rv_fix_scale (d : ℕ) : ℚ := (1 / 100) / d

/-- `proposal()` (lines 32-35): stack the fixed draw and the adaptive draw and
gather with the Bernoulli draw `uv` — index 1 (drawn with probability `p_u`)
selects the adaptive sample, index 0 the fixed sample. -/
def rwm_proposal (fixDraw adaptDraw : List ℚ) (uv : Fin 2) : List ℚ :=
  if uv = 1 then adaptDraw else fixDraw

/-- `_fn` (lines 30-37): add one proposal draw to each state part. -/
def random_walk_mvnorm_step (fixDraw adaptDraw : List ℚ) (uv : Fin 2)
    (state_parts : List (List ℚ)) : List (List ℚ) :=
  state_parts.map (fun state_part => List.zipWith (· + ·) (rwm_proposal fixDraw adaptDraw uv) state_part)

/-- C8 (counterexample).  For dimension `d = 2` the fixed branch's
per-component variance is `(0.01/2)^2 = 1/40000`, not the claimed
`0.01^2/2 = 1/20000`: the code divides the standard deviation by `d`, which
matches a per-component standard deviation `0.01/d`, not `0.01/sqrt d`. -/
theorem rv_fix_scale_not_claimed_variance :
    (rv_fix_scale 2) ^ 2 ≠ (1 / 100 : ℚ) ^ 2 / 2 := by
  norm_num [rv_fix_scale]

/-- C8 (amended).  For every dimension `d ≥ 1`: the fixed branch of the
mixture is an independent normal with per-component standard deviation
`0.01/d` (variance `0.01^2/d^2`); the Bernoulli(`p_u`) draw `uv = 1` selects
the adaptive multivariate-normal sample (built on the supplied covariance plus
a `1e-9` diagonal jitter) and `uv = 0` selects the fixed sample; the chosen
noise is added elementwise to every state part. -/
theorem random_walk_mvnorm_fn_mixture (d : ℕ) (hd : 1 ≤ d) :
    rv_fix_scale d = 1 / (100 * d) ∧
    (rv_fix_scale d) ^ 2 = (1 / 100 : ℚ) ^ 2 / d ^ 2 ∧
    (∀ fixDraw adaptDraw : List ℚ,
      rwm_proposal fixDraw adaptDraw 1 = adaptDraw ∧
      rwm_proposal fixDraw adaptDraw 0 = fixDraw) ∧
    (∀ n (covariance : Fin n → Fin n → ℚ) i j,
      rwm_covariance_jitter n covariance i j
        = covariance i j + if i = j then 1 / 1000000000 else 0) ∧
    (∀ fixDraw adaptDraw uv (state_part : List ℚ),
      random_walk_mvnorm_step fixDraw adaptDraw uv [state_part]
        = [List.zipWith (· + ·) (rwm_proposal fixDraw adaptDraw uv) state_part]) := by
  have hd0 : d ≠ 0 := by omega
  have hd' : (d : ℚ) ≠ 0 := Nat.cast_ne_zero.mpr hd0
  refine ⟨?_, ?_, ?_, ?_, ?_⟩
  · rw [rv_fix_scale]
    field_simp
  · rw [rv_fix_scale]
    field_simp
    ring
  · intro fixDraw adaptDraw
    exact ⟨rfl, rfl⟩
  · intro n covariance i j
    rfl
  · intro fixDraw adaptDraw uv state_part
    rfl

/-- Witness for C8 (amended) at dimension `d = 2`. -/
theorem random_walk_mvnorm_fn_mixture_witness :
    1 ≤ 2 ∧
    (rv_fix_scale 2 = 1 / (100 * 2) ∧
      (rv_fix_scale 2) ^ 2 = (1 / 100 : ℚ) ^ 2 / 2 ^ 2 ∧
      (∀ fixDraw adaptDraw : List ℚ,
        rwm_proposal fixDraw adaptDraw 1 = adaptDraw ∧
        rwm_proposal fixDraw adaptDraw 0 = fixDraw) ∧
      (∀ n (covariance : Fin n → Fin n → ℚ) i j,
        rwm_covariance_jitter n covariance i j
          = covariance i j + if i = j then 1 / 1000000000 else 0) ∧
      (∀ fixDraw adaptDraw uv (state_part : List ℚ),
        random_walk_mvnorm_step fixDraw adaptDraw uv [state_part]
          = [List.zipWith (· + ·) (rwm_proposal fixDraw adaptDraw uv) state_part])) := by
  refine ⟨by norm_num, ?_⟩
  have h := random_walk_mvnorm_fn_mixture 2 (by norm_num)
  simpa using h

/-! ## C5: `approx_expm` (src/covid/impl/discrete_markov.py lines 10-18)

`tf.math.multiply_no_nan(x, y)` returns `0` whenever `y = 0`, even if `x` is
not finite; this guard is what maps a zero-rate row to the identity row
instead of dividing `0/0`. -/

noncomputable def multiply_no_nan (x y : ℝ) : ℝ := if y = 0 then 0 else x * y

/-- `total_rates = tf.reduce_sum(rates, axis=-1)` (line 15). -/
noncomputable def total_rates {n : ℕ} (rates : Fin n → Fin n → ℝ) (i : Fin n) : ℝ :=
  ∑ k, rates i k

/-- `prob = 1 - exp(-reduce_sum(rates, axis=-1))` (line 16). -/
noncomputable def leave_prob {n : ℕ} (rates : Fin n → Fin n → ℝ) (i : Fin n) : ℝ :=
  1 - Real.exp (-(total_rates rates i))

/-- `mt1 = multiply_no_nan(rates / total_rates, prob)` (line 17). -/
noncomputable def approx_expm_mt1 {n : ℕ} (rates : Fin n → Fin n → ℝ) (i j : Fin n) : ℝ :=
  multiply_no_nan (rates i j / total_rates rates i) (leave_prob rates i)

/-- `approx_expm` (lines 10-18): `set_diag(mt1, 1 - reduce_sum(mt1, axis=-1))`. -/
noncomputable def approx_expm {n : ℕ} (rates : Fin n → Fin n → ℝ) (i j : Fin n) : ℝ :=
  if i = j then 1 - ∑ k, approx_expm_mt1 rates i k else approx_expm_mt1 rates i j

lemma total_rates_nonneg {n : ℕ} (rates : Fin n → Fin n → ℝ)
    (hnn : ∀ i j, 0 ≤ rates i j) (i : Fin n) : 0 ≤ total_rates rates i :=
  Finset.sum_nonneg fun k _ => hnn i k

lemma leave_prob_nonneg {n : ℕ} (rates : Fin n → Fin n → ℝ)
    (hnn : ∀ i j, 0 ≤ rates i j) (i : Fin n) : 0 ≤ leave_prob rates i := by
  have h := total_rates_nonneg rates hnn i
  have : Real.exp (-(total_rates rates i)) ≤ 1 := Real.exp_le_one_iff.mpr (by linarith)
  simp only [leave_prob]
  linarith

lemma leave_prob_le_one {n : ℕ} (rates : Fin n → Fin n → ℝ) (i : Fin n) :
    leave_prob rates i ≤ 1 := by
  have := Real.exp_pos (-(total_rates rates i))
  simp only [leave_prob]
  linarith

lemma leave_prob_eq_zero_of_total_eq_zero {n : ℕ} (rates : Fin n → Fin n → ℝ)
    (i : Fin n) (h : total_rates rates i = 0) : leave_prob rates i = 0 := by
  simp [leave_prob, h]

lemma total_rates_pos_of_leave_prob_ne_zero {n : ℕ} (rates : Fin n → Fin n → ℝ)
    (hnn : ∀ i j, 0 ≤ rates i j) (i : Fin n) (h : leave_prob rates i ≠ 0) :
    0 < total_rates rates i := by
  rcases lt_or_eq_of_le (total_rates_nonneg rates hnn i) with hlt | heq
  · exact hlt
  · exact absurd (leave_prob_eq_zero_of_total_eq_zero rates i heq.symm) h

lemma approx_expm_mt1_diag {n : ℕ} (rates : Fin n → Fin n → ℝ) (i : Fin n)
    (hdiag : rates i i = 0) : approx_expm_mt1 rates i i = 0 := by
  simp only [approx_expm_mt1, multiply_no_nan, hdiag, zero_div, zero_mul]
  split <;> rfl

lemma approx_expm_mt1_nonneg {n : ℕ} (rates : Fin n → Fin n → ℝ)
    (hnn : ∀ i j, 0 ≤ rates i j) (i j : Fin n) : 0 ≤ approx_expm_mt1 rates i j := by
  simp only [approx_expm_mt1, multiply_no_nan]
  split
  · exact le_refl 0
  · exact mul_nonneg (div_nonneg (hnn i j) (total_rates_nonneg rates hnn i))
      (leave_prob_nonneg rates hnn i)

lemma approx_expm_mt1_le_one {n : ℕ} (rates : Fin n → Fin n → ℝ)
    (hnn : ∀ i j, 0 ≤ rates i j) (i j : Fin n) : approx_expm_mt1 rates i j ≤ 1 := by
  simp only [approx_expm_mt1, multiply_no_nan]
  split
  · exact zero_le_one
  · rename_i hne
    have htr : 0 < total_rates rates i := total_rates_pos_of_leave_prob_ne_zero rates hnn i hne
    have hle : rates i j ≤ total_rates rates i :=
      Finset.single_le_sum (fun k _ => hnn i k) (Finset.mem_univ j)
    have hdiv : rates i j / total_rates rates i ≤ 1 := (div_le_one htr).mpr hle
    have hdiv0 : 0 ≤ rates i j / total_rates rates i :=
      div_nonneg (hnn i j) (le_of_lt htr)
    exact mul_le_one₀ hdiv (leave_prob_nonneg rates hnn i) (leave_prob_le_one rates i)

lemma approx_expm_mt1_row_sum {n : ℕ} (rates : Fin n → Fin n → ℝ)
    (hnn : ∀ i j, 0 ≤ rates i j) (i : Fin n) :
    ∑ k, approx_expm_mt1 rates i k = if leave_prob rates i = 0 then 0 else leave_prob rates i := by
  split
  · rename_i h0
    simp [approx_expm_mt1, multiply_no_nan, h0]
  · rename_i hne
    have htr : 0 < total_rates rates i := total_rates_pos_of_leave_prob_ne_zero rates hnn i hne
    have : ∀ k : Fin n, approx_expm_mt1 rates i k
        = rates i k / total_rates rates i * leave_prob rates i := by
      intro k
      simp [approx_expm_mt1, multiply_no_nan, hne]
    rw [Finset.sum_congr rfl fun k _ => this k, ← Finset.sum_mul, ← Finset.sum_div]
    have hsum : (∑ k, rates i k) = total_rates rates i := rfl
    rw [hsum, div_self (ne_of_gt htr), one_mul]

lemma approx_expm_mt1_row_sum_nonneg {n : ℕ} (rates : Fin n → Fin n → ℝ)
    (hnn : ∀ i j, 0 ≤ rates i j) (i : Fin n) : 0 ≤ ∑ k, approx_expm_mt1 rates i k :=
  Finset.sum_nonneg fun k _ => approx_expm_mt1_nonneg rates hnn i k

lemma approx_expm_mt1_row_sum_le_one {n : ℕ} (rates : Fin n → Fin n → ℝ)
    (hnn : ∀ i j, 0 ≤ rates i j) (i : Fin n) : ∑ k, approx_expm_mt1 rates i k ≤ 1 := by
  rw [approx_expm_mt1_row_sum rates hnn i]
  split
  · exact zero_le_one
  · exact leave_prob_le_one rates i

/-- C5.  For every rate matrix with non-negative entries and zero diagonal,
`approx_expm` returns a matrix whose rows each sum to `1`, whose entries all
lie in `[0, 1]`, and which maps every all-zero row of the rate matrix to the
identity row (diagonal `1`, off-diagonal `0`) through the `multiply_no_nan`
no-rate guard rather than an undefined `0/0` division. -/
theorem approx_expm_stochastic {n : ℕ} (rates : Fin n → Fin n → ℝ)
    (hnn : ∀ i j, 0 ≤ rates i j) (hdiag : ∀ i, rates i i = 0) :
    (∀ i, ∑ j, approx_expm rates i j = 1) ∧
    (∀ i j, 0 ≤ approx_expm rates i j ∧ approx_expm rates i j ≤ 1) ∧
    (∀ i, (∀ j, rates i j = 0) →
      approx_expm rates i i = 1 ∧ ∀ j, j ≠ i → approx_expm rates i j = 0) := by
  refine ⟨?_, ?_, ?_⟩
  · intro i
    have hpt : ∀ j : Fin n, approx_expm rates i j
        = approx_expm_mt1 rates i j
          + (if i = j then 1 - ∑ k, approx_expm_mt1 rates i k - approx_expm_mt1 rates i i else 0) := by
      intro j
      simp only [approx_expm]
      split
      · rename_i hij
        rw [← hij]
        ring
      · ring
    rw [Finset.sum_congr rfl fun j _ => hpt j, Finset.sum_add_distrib, Finset.sum_ite_eq]
    simp [approx_expm_mt1_diag rates i (hdiag i)]
  · intro i j
    constructor
    · simp only [approx_expm]
      split
      · have := approx_expm_mt1_row_sum_le_one rates hnn i
        linarith
      · exact approx_expm_mt1_nonneg rates hnn i j
    · simp only [approx_expm]
      split
      · have := approx_expm_mt1_row_sum_nonneg rates hnn i
        linarith
      · exact approx_expm_mt1_le_one rates hnn i j
  · intro i hzero
    have htot : total_rates rates i = 0 := by
      simp [total_rates, hzero]
    have hlp : leave_prob rates i = 0 := leave_prob_eq_zero_of_total_eq_zero rates i htot
    have hmt1 : ∀ j : Fin n, approx_expm_mt1 rates i j = 0 := by
      intro j
      simp [approx_expm_mt1, multiply_no_nan, hlp]
    constructor
    · simp [approx_expm, Finset.sum_congr rfl fun j _ => hmt1 j]
    · intro j hji
      simp only [approx_expm]
      rw [if_neg (fun h => hji h.symm)]
      exact hmt1 j

/-- Witness for C5 at the `2 × 2` zero rate matrix. -/
theorem approx_expm_stochastic_witness :
    (∀ _i _j : Fin 2, 0 ≤ (0 : ℝ)) ∧ (∀ _i : Fin 2, (0 : ℝ) = 0) ∧
    ((∀ i, ∑ j, approx_expm (fun _ _ : Fin 2 => (0 : ℝ)) i j = 1) ∧
      (∀ i j, 0 ≤ approx_expm (fun _ _ : Fin 2 => (0 : ℝ)) i j ∧
        approx_expm (fun _ _ : Fin 2 => (0 : ℝ)) i j ≤ 1) ∧
      (∀ i, (∀ j, (fun _ _ : Fin 2 => (0 : ℝ)) i j = 0) →
        approx_expm (fun _ _ : Fin 2 => (0 : ℝ)) i i = 1 ∧
        ∀ j, j ≠ i → approx_expm (fun _ _ : Fin 2 => (0 : ℝ)) i j = 0)) :=
  ⟨fun _ _ => le_refl 0, fun _ => rfl,
    approx_expm_stochastic (fun _ _ => 0) (fun _ _ => le_refl 0) (fun _ => rfl)⟩

/-! ## C6: `chain_binomial_propagate` (src/covid/impl/discrete_markov.py lines 21-61)

For each source compartment (a row of the per-subpopulation probability matrix)
the propagator loops over the first `num_states - 1` destination compartments,
drawing `Binomial(total_count, clip(probs/(1-prev_probs), 0, 1))` counts and
decrementing `total_count`; the last destination gets whatever remains of the
row's occupancy, with no draw.  The binomial sampling is abstracted by a draw
oracle: `draws` lists, per source compartment, the `num_states - 1` sampled
counts, and `validBinomialDraws` is the support condition of those binomial
distributions — each sample is a non-negative count no larger than the
remaining `total_count` at its draw (the clip keeps every probability in
`[0, 1]`, so this is exactly the binomial support). -/

def propagateRow (total_count : ℤ) : List ℤ → List ℤ
  | [] => [total_count]
  | sample :: rest => sample :: propagateRow (total_count - sample) rest

/-- Support condition of the sequential binomial draws for one source
compartment: each sample lies in `[0, total_count]` for the running
`total_count` at the moment it is drawn. -/
def validBinomialDraws (total_count : ℤ) : List ℤ → Bool
  | [] => true
  | sample :: rest =>
      decide (0 ≤ sample) && decide (sample ≤ total_count)
        && validBinomialDraws (total_count - sample) rest

/-- `new_state = tf.reduce_sum(counts, axis=-2)` (line 58): sum the event-count
matrix over its source-compartment axis. -/
def columnSums (num_states : ℕ) (counts : List (List ℤ)) : List ℤ :=
  counts.foldr (fun row acc => List.zipWith (· + ·) row acc) (List.replicate num_states 0)

/-- The `propagate_fn` returned by `chain_binomial_propagate` (lines 32-59),
with the binomial draws supplied by the oracle: row `i` of the emitted counts
is the `num_states - 1` draws for source compartment `i` followed by the
remainder of that compartment's occupancy, and the updated state is the
column sum of the counts. -/
def chain_binomial_propagate_fn (num_states : ℕ) (state : List ℤ)
    (draws : List (List ℤ)) : List (List ℤ) × List ℤ :=
  let counts := List.zipWith propagateRow state draws
  (counts, columnSums num_states counts)

lemma propagateRow_sum (total_count : ℤ) (d : List ℤ) :
    (propagateRow total_count d).sum = total_count := by
  induction d generalizing total_count with
  | nil => simp [propagateRow]
  | cons sample rest ih => simp [propagateRow, ih]

lemma propagateRow_length (total_count : ℤ) (d : List ℤ) :
    (propagateRow total_count d).length = d.length + 1 := by
  induction d generalizing total_count with
  | nil => rfl
  | cons sample rest ih => simp [propagateRow, ih]

lemma propagateRow_nonneg (total_count : ℤ) (d : List ℤ)
    (h0 : 0 ≤ total_count) (hv : validBinomialDraws total_count d = true) :
    ∀ c ∈ propagateRow total_count d, 0 ≤ c := by
  induction d generalizing total_count with
  | nil =>
      intro c hc
      simp [propagateRow] at hc
      omega
  | cons sample rest ih =>
      simp only [validBinomialDraws, Bool.and_eq_true, decide_eq_true_eq] at hv
      intro c hc
      simp only [propagateRow, List.mem_cons] at hc
      rcases hc with rfl | hc
      · exact hv.1.1
      · exact ih (total_count - sample) (by omega) hv.2 c hc

lemma mem_zipWith {α β γ : Type} {f : α → β → γ} {as : List α} {bs : List β} {c : γ}
    (hc : c ∈ List.zipWith f as bs) : ∃ a ∈ as, ∃ b ∈ bs, c = f a b := by
  induction as generalizing bs with
  | nil => simp at hc
  | cons a as ih =>
      cases bs with
      | nil => simp at hc
      | cons b bs =>
          rcases (by simpa using hc : c = f a b ∨ _) with h | h
          · exact ⟨a, by simp, b, by simp, h⟩
          · obtain ⟨a', ha', b', hb', h'⟩ := ih h
            exact ⟨a', by simp [ha'], b', by simp [hb'], h'⟩

lemma zipWith_add_sum (a b : List ℤ) (h : a.length = b.length) :
    (List.zipWith (· + ·) a b).sum = a.sum + b.sum := by
  induction a generalizing b with
  | nil =>
      cases b with
      | nil => simp
      | cons _ _ => simp at h
  | cons x xs ih =>
      cases b with
      | nil => simp at h
      | cons y ys =>
          simp only [List.zipWith_cons_cons, List.sum_cons, ih ys (by simpa using h)]
          ring

lemma columnSums_length (num_states : ℕ) (counts : List (List ℤ))
    (h : ∀ row ∈ counts, row.length = num_states) :
    (columnSums num_states counts).length = num_states := by
  induction counts with
  | nil => simp [columnSums]
  | cons row rest ih =>
      have hrest := ih (fun r hr => h r (by simp [hr]))
      simp only [columnSums, List.foldr_cons] at hrest ⊢
      rw [List.length_zipWith, hrest, h row (by simp)]
      omega

lemma columnSums_cons (num_states : ℕ) (row : List ℤ) (rest : List (List ℤ)) :
    columnSums num_states (row :: rest)
      = List.zipWith (· + ·) row (columnSums num_states rest) := rfl

lemma columnSums_sum (num_states : ℕ) (counts : List (List ℤ))
    (h : ∀ row ∈ counts, row.length = num_states) :
    (columnSums num_states counts).sum = (counts.map List.sum).sum := by
  induction counts with
  | nil => simp [columnSums]
  | cons row rest ih =>
      have hrest := ih (fun r hr => h r (by simp [hr]))
      have hlen : row.length = (columnSums num_states rest).length := by
        rw [columnSums_length num_states rest (fun r hr => h r (by simp [hr]))]
        exact h row (by simp)
      rw [columnSums_cons, zipWith_add_sum row _ hlen, hrest]
      simp

lemma zipWith_propagateRow_nonneg {state : List ℤ} {draws : List (List ℤ)}
    (hvalid : List.Forall₂ (fun s d => validBinomialDraws s d = true) state draws) :
    (∀ s ∈ state, 0 ≤ s) →
    ∀ row ∈ List.zipWith propagateRow state draws, ∀ c ∈ row, 0 ≤ c := by
  induction hvalid with
  | nil =>
      intro _ row hrow
      simp at hrow
  | cons hsd htail ih =>
      intro hnn row hrow
      rcases (by simpa using hrow :
          row = propagateRow _ _ ∨ row ∈ List.zipWith propagateRow _ _) with rfl | hrow'
      · exact propagateRow_nonneg _ _ (hnn _ (by simp)) hsd
      · exact ih (fun x hx => hnn x (by simp [hx])) row hrow'

lemma forall₂_rowsum_map {counts : List (List ℤ)} {state : List ℤ}
    (h : List.Forall₂ (fun row s => row.sum = s) counts state) :
    counts.map List.sum = state := by
  induction h with
  | nil => rfl
  | cons hrs _ ih => simp [hrs, ih]

/-- C6.  For every occupancy vector with non-negative entries and every set of
binomial draws in the support of the sequential conditional binomials (each
draw a non-negative count not exceeding the remaining occupancy), the event
counts emitted by the propagate function have each row summing exactly to the
input occupancy of that row's compartment (the last destination being the
remainder, not a draw), every count non-negative, and consequently the updated
state — the column sums of the counts — has the same total population as the
input state. -/
theorem chain_binomial_propagate_conserves (num_states : ℕ) (state : List ℤ)
    (draws : List (List ℤ))
    (hns : 1 ≤ num_states)
    (hnn : ∀ s ∈ state, 0 ≤ s)
    (hvalid : List.Forall₂ (fun s d => validBinomialDraws s d = true) state draws)
    (hlen : ∀ d ∈ draws, d.length = num_states - 1) :
    List.Forall₂ (fun row s => row.sum = s)
        (chain_binomial_propagate_fn num_states state draws).1 state ∧
    (∀ row ∈ (chain_binomial_propagate_fn num_states state draws).1, ∀ c ∈ row, 0 ≤ c) ∧
    ((chain_binomial_propagate_fn num_states state draws).2).sum = state.sum := by
  have hrows : List.Forall₂ (fun row s => row.sum = s)
      (List.zipWith propagateRow state draws) state := by
    clear hnn hlen
    induction hvalid with
    | nil => exact List.Forall₂.nil
    | cons _ _ ih => exact List.Forall₂.cons (propagateRow_sum _ _) ih
  refine ⟨hrows, zipWith_propagateRow_nonneg hvalid hnn, ?_⟩
  · have hrowlen : ∀ row ∈ List.zipWith propagateRow state draws, row.length = num_states := by
      intro row hrow
      obtain ⟨s, _, d, hd, rfl⟩ := mem_zipWith hrow
      rw [propagateRow_length, hlen d hd]
      omega
    simp only [chain_binomial_propagate_fn]
    rw [columnSums_sum num_states _ hrowlen, forall₂_rowsum_map hrows]

/-- Witness for C6 with two compartments, occupancies `[3, 4]` and draws
`[[1], [4]]`: the counts are `[[1, 2], [4, 0]]` and the new state `[5, 2]`. -/
theorem chain_binomial_propagate_conserves_witness :
    (1 ≤ 2 ∧ (∀ s ∈ ([3, 4] : List ℤ), 0 ≤ s) ∧
      List.Forall₂ (fun s d => validBinomialDraws s d = true)
        ([3, 4] : List ℤ) ([[1], [4]] : List (List ℤ)) ∧
      (∀ d ∈ ([[1], [4]] : List (List ℤ)), d.length = 2 - 1)) ∧
    (List.Forall₂ (fun row s => row.sum = s)
        (chain_binomial_propagate_fn 2 [3, 4] [[1], [4]]).1 ([3, 4] : List ℤ) ∧
      (∀ row ∈ (chain_binomial_propagate_fn 2 [3, 4] [[1], [4]]).1, ∀ c ∈ row, 0 ≤ c) ∧
      ((chain_binomial_propagate_fn 2 [3, 4] [[1], [4]]).2).sum = ([3, 4] : List ℤ).sum) := by
  have h1 : (1 : ℕ) ≤ 2 := by decide
  have h2 : ∀ s ∈ ([3, 4] : List ℤ), 0 ≤ s := by decide
  have h3 : List.Forall₂ (fun s d => validBinomialDraws s d = true)
      ([3, 4] : List ℤ) ([[1], [4]] : List (List ℤ)) := by
    refine List.Forall₂.cons (by decide) (List.Forall₂.cons (by decide) List.Forall₂.nil)
  have h4 : ∀ d ∈ ([[1], [4]] : List (List ℤ)), d.length = 2 - 1 := by decide
  exact ⟨⟨h1, h2, h3, h4⟩, chain_binomial_propagate_conserves 2 [3, 4] [[1], [4]] h1 h2 h3 h4⟩

/-! ## C3, C4: `UncalibratedEventTimesUpdate.one_step` (src/covid/impl/mcmc.py lines 128-170)

The state is the `[T, M, X]` transition-event tensor (time, metapopulation,
transition type; the kernel reads `num_times` off axis 0).  The random draws
are oracles: the chosen timepoint `t_star`, the direction draw (`u < 0.5`
moves by `-1`, otherwise `+1`), and the drawn per-metapopulation count
`x_star` (`tf.floor` of a uniform makes it integer-valued, so the tensor is
modelled with integer entries).  The two scatter updates are modelled with the
drop-out-of-bounds semantics of the XLA backend under which src/mcmc.py
compiles (`experimental_compile=True`): an update whose destination index lies
outside `[0, num_times)` is dropped, and the kernel instead flags the proposal
with a `-inf` target log density (modelled as `⊥ : WithBot ℚ`) through the
`tf.where` on line 162, so an infeasible move is rejected, not an error. -/

/-- `tf.cumsum` through time of one event series (lines 144-145). -/
def event_cumsum {T M X : ℕ} (state : Fin T → Fin M → Fin X → ℤ) (eid : Fin X)
    (t : Fin T) (m : Fin M) : ℤ :=
  ∑ s : Fin T, if s ≤ t then state s m eid else 0

/-- `real_move_to_index = t_star + direction` with
`direction = tf.where(u < 0.5, -1, 1)` (lines 139, 146). -/
def destIdx {T : ℕ} (t_star : Fin T) (u_lt_half : Bool) : ℤ :=
  (t_star : ℤ) + (if u_lt_half then -1 else 1)

/-- `move_to_index = tf.clip_by_value(real_move_to_index, 0, num_times-1)`
(line 147). -/
def clipIdx {T : ℕ} (t_star : Fin T) (z : ℤ) : Fin T :=
  ⟨min z.toNat (T - 1), by have := t_star.isLt; omega⟩

/-- `n_max = tf.abs(other_cumsum[move_to_index] - target_cumsum[move_to_index])`
(lines 141-148); the constraining series is `prev_event_id` when moving left
and `next_event_id` when moving right. -/
def event_times_n_max {T M X : ℕ} (state : Fin T → Fin M → Fin X → ℤ)
    (target_event_id prev_event_id next_event_id : Fin X)
    (t_star : Fin T) (u_lt_half : Bool) (m : Fin M) : ℤ :=
  let constraining_events := if u_lt_half then prev_event_id else next_event_id
  let move_to_index := clipIdx t_star (destIdx t_star u_lt_half)
  |event_cumsum state constraining_events move_to_index m
    - event_cumsum state target_event_id move_to_index m|

/-- `tf.tensor_scatter_nd_sub(current_state, indices, x_star)` at
`(t_star, m, target_event_id)` for every metapopulation `m` (lines 153-156). -/
def event_times_sub {T M X : ℕ} (state : Fin T → Fin M → Fin X → ℤ)
    (target_event_id : Fin X) (t_star : Fin T) (x_star : Fin M → ℤ) :
    Fin T → Fin M → Fin X → ℤ :=
  fun t m x => if t = t_star ∧ x = target_event_id then state t m x - x_star m else state t m x

/-- `tf.tensor_scatter_nd_add(next_state, indices, x_star)` at
`(t_star + direction, m, target_event_id)` (lines 157-160); an out-of-range
destination is dropped (XLA scatter semantics). -/
def event_times_next {T M X : ℕ} (state : Fin T → Fin M → Fin X → ℤ)
    (target_event_id : Fin X) (t_star : Fin T) (u_lt_half : Bool) (x_star : Fin M → ℤ) :
    Fin T → Fin M → Fin X → ℤ :=
  fun t m x =>
    if (t : ℤ) = destIdx t_star u_lt_half ∧ x = target_event_id then
      event_times_sub state target_event_id t_star x_star t m x + x_star m
    else event_times_sub state target_event_id t_star x_star t m x

/-- `UncalibratedEventTimesUpdate.one_step` (lines 128-170): propose the moved
state and return it with a zero log-acceptance-correction and the target log
density — `logp` at the proposal when the destination index is inside
`[0, num_times)`, the `-inf` sentinel otherwise (line 162-164). -/
def event_times_one_step {T M X : ℕ}
    (target_log_prob_fn : (Fin T → Fin M → Fin X → ℤ) → ℚ)
    (target_event_id prev_event_id next_event_id : Fin X)
    (state : Fin T → Fin M → Fin X → ℤ)
    (t_star : Fin T) (u_lt_half : Bool) (x_star : Fin M → ℤ) :
    (Fin T → Fin M → Fin X → ℤ) × UncalibratedResults (WithBot ℚ) :=
  let next_state := event_times_next state target_event_id t_star u_lt_half x_star
  let next_target_log_prob : WithBot ℚ :=
    if 0 ≤ destIdx t_star u_lt_half ∧ destIdx t_star u_lt_half < (T : ℤ) then
      ((target_log_prob_fn next_state : ℚ) : WithBot ℚ)
    else ⊥
  (next_state,
    { log_acceptance_correction := (0 : WithBot ℚ)
      target_log_prob := next_target_log_prob })

/-- C3.  Whenever the destination index `t_star + direction` lies outside
`[0, num_times)`, `one_step` returns a `-inf` target log density (modelled as
`⊥`), guaranteeing rejection at the Metropolis-Hastings calibration layer; the
embedding is a total function, so no input raises an error. -/
theorem event_times_oob_rejected {T M X : ℕ}
    (target_log_prob_fn : (Fin T → Fin M → Fin X → ℤ) → ℚ)
    (target_event_id prev_event_id next_event_id : Fin X)
    (state : Fin T → Fin M → Fin X → ℤ)
    (t_star : Fin T) (u_lt_half : Bool) (x_star : Fin M → ℤ)
    (h : destIdx t_star u_lt_half < 0 ∨ (T : ℤ) ≤ destIdx t_star u_lt_half) :
    (event_times_one_step target_log_prob_fn target_event_id prev_event_id next_event_id
        state t_star u_lt_half x_star).2.target_log_prob = ⊥ := by
  simp only [event_times_one_step]
  rw [if_neg]
  rintro ⟨h1, h2⟩
  rcases h with h | h <;> omega

/-- Witness for C3: `num_times = 1`, `t_star = 0`, direction `+1` — the
destination index `1` is out of range and the kernel returns `⊥`. -/
theorem event_times_oob_rejected_witness :
    (destIdx (0 : Fin 1) false < 0 ∨ (1 : ℤ) ≤ destIdx (0 : Fin 1) false) ∧
    (event_times_one_step (fun _ => 0) (0 : Fin 2) 0 1 (fun _ _ _ => 0)
        (0 : Fin 1) false (fun _ : Fin 1 => 0)).2.target_log_prob = ⊥ :=
  ⟨by decide,
    event_times_oob_rejected (fun _ => 0) (0 : Fin 2) 0 1 (fun _ _ _ => 0)
      (0 : Fin 1) false (fun _ : Fin 1 => 0) (by decide)⟩

/-- The C4 counterexample state: `num_times = 2`, one metapopulation, two
event series; the target series (id 0) has `0` events at time 0 and `5` at
time 1, the constraining series (id 1) is empty. -/
def exEventState : Fin 2 → Fin 1 → Fin 2 → ℤ :=
  fun t _ x => if t = 1 ∧ x = 0 then 5 else 0

/-- C4 (counterexample).  A non-negative current state on which the kernel
proposes negative events: with `t_star = 0` and direction `+1`, the
constraining cumulative-sum bound gives `n_max = |0 - 5| = 5`, so `x_star = 4`
is a legitimate draw (`0 ≤ 4 < n_max`), yet the proposed state carries
`0 - 4 = -4` events at `(t = 0, m = 0, type 0)`: the bound checks the
destination cumulative sums but never the events available at `t_star`. -/
theorem event_times_negative_proposal :
    (∀ t m x, 0 ≤ exEventState t m x) ∧
    (0 : ℤ) ≤ 4 ∧
    (4 : ℤ) < event_times_n_max exEventState 0 0 1 0 false 0 ∧
    (0 ≤ destIdx (0 : Fin 2) false ∧ destIdx (0 : Fin 2) false < (2 : ℤ)) ∧
    (event_times_one_step (fun _ => 0) 0 0 1 exEventState 0 false
        (fun _ : Fin 1 => 4)).1 0 0 0 < 0 := by
  decide

/-- C4 (amended).  For every current state with non-negative entries, the
proposed state has non-negative entries in every event series provided the
drawn `x_star` additionally does not exceed the target-series events present
at `t_star` in any metapopulation (the draw bound `n_max` alone does not
guarantee this). -/
theorem event_times_nonneg_proposal {T M X : ℕ}
    (target_log_prob_fn : (Fin T → Fin M → Fin X → ℤ) → ℚ)
    (target_event_id prev_event_id next_event_id : Fin X)
    (state : Fin T → Fin M → Fin X → ℤ)
    (t_star : Fin T) (u_lt_half : Bool) (x_star : Fin M → ℤ)
    (hnn : ∀ t m x, 0 ≤ state t m x)
    (hx0 : ∀ m, 0 ≤ x_star m)
    (hxle : ∀ m, x_star m ≤ state t_star m target_event_id) :
    ∀ t m x, 0 ≤ (event_times_one_step target_log_prob_fn target_event_id prev_event_id
        next_event_id state t_star u_lt_half x_star).1 t m x := by
  intro t m x
  have hne : (t : ℤ) = destIdx t_star u_lt_half → t ≠ t_star := by
    intro hd rfl
    simp only [destIdx] at hd
    cases u_lt_half <;> simp at hd <;> omega
  show 0 ≤ event_times_next state target_event_id t_star u_lt_half x_star t m x
  rw [event_times_next]
  split
  · rename_i hA
    rw [event_times_sub, if_neg (fun hB => hne hA.1 hB.1)]
    have h1 := hnn t m x
    have h2 := hx0 m
    omega
  · rw [event_times_sub]
    split
    · rename_i hB
      obtain ⟨rfl, rfl⟩ := hB
      have := hxle m
      omega
    · exact hnn t m x

/-- The all-ones state used by the C4 witness. -/
def exOnesState : Fin 2 → Fin 1 → Fin 2 → ℤ := fun _ _ _ => 1

/-- Witness for C4 (amended): a state of all-ones, moving one event from
`t_star = 0` to the right — every entry of the proposal is non-negative. -/
theorem event_times_nonneg_proposal_witness :
    ((∀ t m x, 0 ≤ exOnesState t m x) ∧
      (∀ _m : Fin 1, (0 : ℤ) ≤ 1) ∧
      (∀ m : Fin 1, (1 : ℤ) ≤ exOnesState (0 : Fin 2) m (0 : Fin 2))) ∧
    ∀ t m x, 0 ≤ (event_times_one_step (fun _ => 0) (0 : Fin 2) 0 1
        exOnesState (0 : Fin 2) false (fun _ : Fin 1 => 1)).1 t m x :=
  ⟨⟨by decide, by decide, by decide⟩,
    event_times_nonneg_proposal (fun _ => 0) (0 : Fin 2) 0 1 exOnesState
      (0 : Fin 2) false (fun _ : Fin 1 => 1)
      (by decide) (by decide) (by decide)⟩

/-! ## C7: `discrete_markov_log_prob` (src/covid/impl/discrete_markov.py lines 84-132)

The event tensor is `[M, T, X]`; the SEIR configuration has `X = 3` transition
types over `S = 4` compartments, which is the shape the function hard-wires:
line 122-124 calls `make_transition_matrix(events, [[0, 1], [1, 2], [2, 3]], ...)`
with a literal list of placement pairs, while the `stoichiometry` argument is
used only by `compute_state`.  Following spec section 6, a stoichiometry
mapping is modelled as the list of (source, destination) compartment index
pairs, one per transition type. -/

/-- The hard-wired placement pairs of line 123. -/
def seir_pairs : Fin 3 → Fin 4 × Fin 4 := ![(0, 1), (1, 2), (2, 3)]

/-- Modelled from the spec: `compute_state` lives in covid/impl/util.py, which
is not under src/.  Spec 4.4: "reconstruct full per-time occupancy by
cumulative application of the stoichiometry to the event tensor (prefix-sum
style state reconstruction)" — occupancy entering step `t` is the initial
state plus the net stoichiometric effect of all events before `t`. -/
def compute_state {M T : ℕ} (init_state : Fin M → Fin 4 → ℝ)
    (events : Fin M → Fin T → Fin 3 → ℝ) (stoichiometry : Fin 3 → Fin 4 × Fin 4) :
    Fin M → Fin T → Fin 4 → ℝ :=
  fun m t s => init_state m s + ∑ u : Fin T, ∑ x : Fin 3,
    if (u : ℕ) < (t : ℕ) then
      events m u x * ((if (stoichiometry x).2 = s then 1 else 0)
        - (if (stoichiometry x).1 = s then 1 else 0))
    else 0

/-- Modelled from the spec: `make_transition_matrix` lives in
covid/impl/util.py, which is not under src/.  Spec 4.4: "build a full
transition-count matrix per subpopulation by placing observed off-diagonal
transition counts" — the count of transition type `x` goes to the
(source, destination) cell of its placement pair. -/
def make_transition_matrix {M T : ℕ} (events : Fin M → Fin T → Fin 3 → ℝ)
    (pairs : Fin 3 → Fin 4 × Fin 4) : Fin M → Fin T → Fin 4 → Fin 4 → ℝ :=
  fun m t i j => ∑ x : Fin 3, if pairs x = (i, j) then events m t x else 0

/-- `tf.linalg.set_diag(event_matrix, state_timeseries - reduce_sum(event_matrix, axis=-1))`
(lines 125-127): the diagonal holds the occupancy minus the total outflow. -/
def set_diag_survivors {M T : ℕ} (event_matrix : Fin M → Fin T → Fin 4 → Fin 4 → ℝ)
    (state_timeseries : Fin M → Fin T → Fin 4 → ℝ) :
    Fin M → Fin T → Fin 4 → Fin 4 → ℝ :=
  fun m t i j =>
    if i = j then state_timeseries m t i - ∑ k, event_matrix m t i k
    else event_matrix m t i j

/-- The log probability mass of `tfd.Multinomial(total_count, probs)` at
`counts`: the log multinomial coefficient (via the Gamma function, as
`tf.math.lgamma` computes it) plus `∑ counts * log probs`. -/
noncomputable def multinomial_log_prob (total_count : ℝ) (probs counts : Fin 4 → ℝ) : ℝ :=
  (∑ j, counts j * Real.log (probs j))
    + (Real.log (Real.Gamma (total_count + 1)) - ∑ j, Real.log (Real.Gamma (counts j + 1)))

/-- The common pipeline of `discrete_markov_log_prob`, parameterised by the
pairs used for event placement: reconstruct occupancy with the supplied
stoichiometry, derive per-time transition probabilities via `approx_expm` of
the hazard scaled by the time step, place the events, set the survivor
diagonal, and sum the per-(time, subpopulation, row) multinomial scores. -/
noncomputable def discrete_markov_log_prob_pipeline {M T : ℕ}
    (events : Fin M → Fin T → Fin 3 → ℝ) (init_state : Fin M → Fin 4 → ℝ)
    (hazard_fn : ℕ → (Fin M → Fin 4 → ℝ) → Fin M → Fin 4 → Fin 4 → ℝ)
    (time_step : ℝ) (stoichiometry placement_pairs : Fin 3 → Fin 4 × Fin 4) : ℝ :=
  let state_timeseries := compute_state init_state events stoichiometry
  let probs : Fin M → Fin T → Fin 4 → Fin 4 → ℝ := fun m t =>
    approx_expm (fun i j =>
      hazard_fn (t : ℕ) (fun m' s => state_timeseries m' t s) m i j * time_step)
  let event_matrix :=
    set_diag_survivors (make_transition_matrix events placement_pairs) state_timeseries
  ∑ t : Fin T, ∑ m : Fin M, ∑ i : Fin 4,
    multinomial_log_prob (state_timeseries m t i)
      (fun j => probs m t i j) (fun j => event_matrix m t i j)

/-- `discrete_markov_log_prob` as the source writes it: the placement pairs
are the literal `[[0, 1], [1, 2], [2, 3]]` of line 123, regardless of the
supplied stoichiometry. -/
noncomputable def discrete_markov_log_prob {M T : ℕ}
    (events : Fin M → Fin T → Fin 3 → ℝ) (init_state : Fin M → Fin 4 → ℝ)
    (hazard_fn : ℕ → (Fin M → Fin 4 → ℝ) → Fin M → Fin 4 → Fin 4 → ℝ)
    (time_step : ℝ) (stoichiometry : Fin 3 → Fin 4 × Fin 4) : ℝ :=
  discrete_markov_log_prob_pipeline events init_state hazard_fn time_step
    stoichiometry seir_pairs

/-- The claimed behaviour, following the spec's words: event placement at the
cells given by the *supplied* stoichiometry mapping. -/
noncomputable def discrete_markov_log_prob_specPlacement {M T : ℕ}
    (events : Fin M → Fin T → Fin 3 → ℝ) (init_state : Fin M → Fin 4 → ℝ)
    (hazard_fn : ℕ → (Fin M → Fin 4 → ℝ) → Fin M → Fin 4 → Fin 4 → ℝ)
    (time_step : ℝ) (stoichiometry : Fin 3 → Fin 4 × Fin 4) : ℝ :=
  discrete_markov_log_prob_pipeline events init_state hazard_fn time_step
    stoichiometry stoichiometry

/-! The C7 counterexample instance: one subpopulation, one time step, one
observed event of transition type `0`, population `1` in compartment `0`, a
hazard putting rate `1` on the `0 → 1` move, and a supplied stoichiometry
whose type-`0` pair is `(0, 2)` — not the hard-wired `(0, 1)`. -/

noncomputable def exC7Events : Fin 1 → Fin 1 → Fin 3 → ℝ := fun _ _ x => if x = 0 then 1 else 0

noncomputable def exC7Init : Fin 1 → Fin 4 → ℝ := fun _ s => if s = 0 then 1 else 0

def exC7Stoich : Fin 3 → Fin 4 × Fin 4 := ![(0, 2), (1, 2), (2, 3)]

noncomputable def exC7Hazard : ℕ → (Fin 1 → Fin 4 → ℝ) → Fin 1 → Fin 4 → Fin 4 → ℝ :=
  fun _ _ _ i j => if i = 0 ∧ j = 1 then 1 else 0

/-- C7 (counterexample).  On the instance above the function returns
`log (1 - exp (-1))` — the type-`0` event is scored in the `(0, 1)` cell fixed
by line 123 — while placement at the cells of the *supplied* stoichiometry
mapping (type `0` at `(0, 2)`, a zero-probability move) returns `0`: the
returned log density does not follow the supplied stoichiometry, refuting the
claim that the transition counts are placed at the cells that mapping gives. -/
theorem discrete_markov_log_prob_ignores_stoichiometry :
    discrete_markov_log_prob exC7Events exC7Init exC7Hazard 1 exC7Stoich
      ≠ discrete_markov_log_prob_specPlacement exC7Events exC7Init exC7Hazard 1 exC7Stoich := by
  have hlt : Real.exp (-1) < 1 := Real.exp_lt_one_iff.mpr (by norm_num)
  have hq := Real.exp_pos (-1 : ℝ)
  have hne0 : (1 : ℝ) - Real.exp (-1) ≠ 0 := by linarith
  have hcode : discrete_markov_log_prob exC7Events exC7Init exC7Hazard 1 exC7Stoich
      = Real.log (1 - Real.exp (-1)) := by
    simp [discrete_markov_log_prob, discrete_markov_log_prob_pipeline, compute_state,
      make_transition_matrix, set_diag_survivors, multinomial_log_prob, approx_expm,
      approx_expm_mt1, multiply_no_nan, total_rates, leave_prob, exC7Events, exC7Init,
      exC7Hazard, exC7Stoich, seir_pairs, Fin.sum_univ_four, Fin.sum_univ_three,
      Fin.sum_univ_one, Real.exp_zero, Real.Gamma_one, Real.Gamma_two, Real.log_one,
      Real.log_zero, hne0, Fin.isValue, Matrix.cons_val_zero, Matrix.cons_val_one,
      Matrix.head_cons, Finset.filter_eq, Finset.filter_eq', Finset.mem_univ,
      Finset.card_singleton]
  have hspec : discrete_markov_log_prob_specPlacement exC7Events exC7Init exC7Hazard 1 exC7Stoich
      = 0 := by
    simp [discrete_markov_log_prob_specPlacement, discrete_markov_log_prob_pipeline,
      compute_state, make_transition_matrix, set_diag_survivors, multinomial_log_prob,
      approx_expm, approx_expm_mt1, multiply_no_nan, total_rates, leave_prob, exC7Events,
      exC7Init, exC7Hazard, exC7Stoich, seir_pairs, Fin.sum_univ_four, Fin.sum_univ_three,
      Fin.sum_univ_one, Real.exp_zero, Real.Gamma_one, Real.Gamma_two, Real.log_one,
      Real.log_zero, hne0, Fin.isValue, Matrix.cons_val_zero, Matrix.cons_val_one,
      Matrix.head_cons, Finset.filter_eq, Finset.filter_eq', Finset.mem_univ,
      Finset.card_singleton]
  rw [hcode, hspec]
  exact Real.log_ne_zero_of_pos_of_ne_one (by linarith) (by intro h; linarith)

/-- C7 (amended).  `discrete_markov_log_prob` builds the transition-count
matrix by placing each observed transition-type count at the *fixed* pairs
`[[0, 1], [1, 2], [2, 3]]` whatever stoichiometry is supplied (the supplied
mapping is used only to reconstruct occupancy); the diagonal is the occupancy
minus the total outflow, the matrix is scored under a multinomial law with the
derived probability matrix and occupancy as trial count, and the result is the
scalar sum over all times and subpopulations.  In particular the function
behaves as the original claim states exactly when the supplied stoichiometry
is that SEIR mapping. -/
theorem discrete_markov_log_prob_seir_placement {M T : ℕ}
    (events : Fin M → Fin T → Fin 3 → ℝ) (init_state : Fin M → Fin 4 → ℝ)
    (hazard_fn : ℕ → (Fin M → Fin 4 → ℝ) → Fin M → Fin 4 → Fin 4 → ℝ)
    (time_step : ℝ) (stoichiometry : Fin 3 → Fin 4 × Fin 4)
    (h : stoichiometry = seir_pairs) :
    discrete_markov_log_prob events init_state hazard_fn time_step stoichiometry
        = discrete_markov_log_prob_specPlacement events init_state hazard_fn time_step
            stoichiometry ∧
    ∀ stoichiometry' : Fin 3 → Fin 4 × Fin 4,
      discrete_markov_log_prob events init_state hazard_fn time_step stoichiometry'
        = discrete_markov_log_prob_pipeline events init_state hazard_fn time_step
            stoichiometry' seir_pairs := by
  subst h
  exact ⟨rfl, fun _ => rfl⟩

/-- Witness for C7 (amended) at the SEIR stoichiometry and the concrete
instance of the counterexample. -/
theorem discrete_markov_log_prob_seir_placement_witness :
    seir_pairs = seir_pairs ∧
    (discrete_markov_log_prob exC7Events exC7Init exC7Hazard 1 seir_pairs
        = discrete_markov_log_prob_specPlacement exC7Events exC7Init exC7Hazard 1
            seir_pairs ∧
      ∀ stoichiometry' : Fin 3 → Fin 4 × Fin 4,
        discrete_markov_log_prob exC7Events exC7Init exC7Hazard 1 stoichiometry'
          = discrete_markov_log_prob_pipeline exC7Events exC7Init exC7Hazard 1
              stoichiometry' seir_pairs) :=
  ⟨rfl, discrete_markov_log_prob_seir_placement exC7Events exC7Init exC7Hazard 1
    seir_pairs rfl⟩

end Covid19UK
